import Mathlib

/-!
Verification of the `metric_learn` input-validation, constraint-generation and
Mahalanobis-core routines against their natural-language specification.

The Python sources are shallowly embedded: numpy float arrays become vectors
and matrices over `ℝ` (or over `ℤ`/`ℕ`/`String` for the discrete parts),
fallible code returns `Except String`, and the external linear-algebra
facilities (Cholesky, `eigh`, the scipy optimizer) are modelled as black-box
arguments constrained only by their standard numerical contracts.
-/

namespace MetricLearn

open Matrix

/-- A data point with `d` features (one row of a numpy point array). -/
abbrev Vec (d : ℕ) := Fin d → ℝ

/-- `MahalanobisMixin.transform` on a single row of `X`:
`X_embedded = X.dot(L.T)`, so a row `x` becomes `x ᵥ* Lᵀ = L *ᵥ x`. -/
def transform {k d : ℕ} (L : Matrix (Fin k) (Fin d) ℝ) (x : Vec d) : Vec k :=
  Matrix.mulVec L x

/-- `MahalanobisMixin.score_pairs` on a single formed pair `(x₁, x₂)`:
`pairwise_diffs = self.transform(pairs[:, 1, :] - pairs[:, 0, :])` followed by
`np.sqrt(np.sum(pairwise_diffs**2, axis=-1))`. -/
noncomputable def score_pair {k d : ℕ} (L : Matrix (Fin k) (Fin d) ℝ)
    (p : Vec d × Vec d) : ℝ :=
  Real.sqrt (∑ j, transform L (p.2 - p.1) j ^ 2)

/-- Modelled from the spec: `check_tuples` (called by `base_metric.py` but whose
definition is absent from the provided sources) validates the shape of a tuple
array; in particular each tuple must have the declared number of elements
(`tuple_size=2` for pairs), and a tuple-width error is raised otherwise. -/
def check_tuples {α : Type} (tuples : List (List α)) (tuple_size : ℕ) :
    Except String (List (List α)) :=
  if tuples.all fun t => t.length == tuple_size then Except.ok tuples
  else Except.error ("Tuples of " ++ toString tuple_size ++ " element(s) expected")

/-- `MahalanobisMixin.score_pairs`: validates the pairs as tuples of size 2 via
`check_tuples`, applies the preprocessor `resolve` to every tuple member (the
identity resolver models an already formed 3D array), then computes for every
pair the euclidean norm of the transformed difference. -/
noncomputable def score_pairs {k d : ℕ} {α : Type} (L : Matrix (Fin k) (Fin d) ℝ)
    (resolve : α → Vec d) (pairs : List (List α)) : Except String (List ℝ) :=
  match check_tuples pairs 2 with
  | Except.error e => Except.error e
  | Except.ok ps => Except.ok (ps.map fun p =>
      score_pair L ((p.map resolve).getD 0 0, (p.map resolve).getD 1 0))

/-- `_QuadrupletsClassifierMixin.predict`: elementwise difference of the pair
scores of the first two and the last two points of each quadruplet. -/
noncomputable def quad_predict {k d : ℕ} (L : Matrix (Fin k) (Fin d) ℝ)
    (quadruplets : List ((Vec d × Vec d) × (Vec d × Vec d))) : List ℝ :=
  List.zipWith (fun s t => s - t)
    ((quadruplets.map Prod.fst).map (score_pair L))
    ((quadruplets.map Prod.snd).map (score_pair L))

/-- `_QuadrupletsClassifierMixin.score`: `-np.mean(self.predict(quadruplets))`. -/
noncomputable def quad_score {k d : ℕ} (L : Matrix (Fin k) (Fin d) ℝ)
    (quadruplets : List ((Vec d × Vec d) × (Vec d × Vec d))) : ℝ :=
  -((quad_predict L quadruplets).sum / (quad_predict L quadruplets).length)

/-- The sum of squares of the embedded vector `L *ᵥ v` is the quadratic form of
`M = Lᵀ * L` at `v`. -/
lemma sum_sq_mulVec {k d : ℕ} (L : Matrix (Fin k) (Fin d) ℝ) (v : Vec d) :
    ∑ j, Matrix.mulVec L v j ^ 2 =
      Matrix.dotProduct v (Matrix.mulVec (Lᵀ * L) v) := by
  rw [← Matrix.mulVec_mulVec, Matrix.dotProduct_mulVec, Matrix.vecMul_transpose]
  simp [Matrix.dotProduct, pow_two]

/-- A list whose length is 2 is literally a two-element list. -/
lemma list_length_two {α : Type} {p : List α} (hp : p.length = 2) :
    ∃ a b, p = [a, b] := by
  match p, hp with
  | [a, b], _ => exact ⟨a, b, rfl⟩

/-- C2: for every fitted Mahalanobis learner with transform `L` and every valid
pair array, `score_pairs` validates the pairs as tuples of size 2, applies the
preprocessor, and returns for each pair `(x₁, x₂)` the euclidean norm of
`L·(x₂ - x₁)`, which equals the Mahalanobis distance
`sqrt ((x₂-x₁)ᵀ M (x₂-x₁))` under `M = Lᵀ * L`. -/
theorem score_pairs_mahalanobis {k d : ℕ} {α : Type} [Inhabited α]
    (L : Matrix (Fin k) (Fin d) ℝ) (resolve : α → Vec d) (pairs : List (List α))
    (hvalid : ∀ p ∈ pairs, p.length = 2) :
    score_pairs L resolve pairs = Except.ok (pairs.map fun p =>
      Real.sqrt (Matrix.dotProduct (resolve (p.getD 1 default) - resolve (p.getD 0 default))
        (Matrix.mulVec (Lᵀ * L) (resolve (p.getD 1 default) - resolve (p.getD 0 default)))) ) := by
  have hall : pairs.all (fun t => t.length == 2) = true := by
    rw [List.all_eq_true]
    intro t ht
    exact beq_iff_eq.mpr (hvalid t ht)
  unfold score_pairs check_tuples
  rw [hall]
  simp only [if_true]
  congr 1
  apply List.map_congr_left
  intro p hp
  obtain ⟨a, b, rfl⟩ := list_length_two (hvalid p hp)
  show score_pair L (resolve a, resolve b) = _
  unfold score_pair transform
  rw [sum_sq_mulVec]
  rfl

/-- Witness for C2: a concrete valid pair array (one pair in dimension 1, with
the identity transform and identity resolver) on which the theorem applies. -/
theorem score_pairs_mahalanobis_witness :
    (∀ p ∈ [[(fun _ => 0 : Vec 1), (fun _ => 3 : Vec 1)]], p.length = 2) ∧
    score_pairs (1 : Matrix (Fin 1) (Fin 1) ℝ) id
        [[(fun _ => 0 : Vec 1), (fun _ => 3 : Vec 1)]] =
      Except.ok ([[(fun _ => 0 : Vec 1), (fun _ => 3 : Vec 1)]].map fun p =>
        Real.sqrt (Matrix.dotProduct (id (p.getD 1 default) - id (p.getD 0 default))
          (Matrix.mulVec ((1 : Matrix (Fin 1) (Fin 1) ℝ)ᵀ * 1)
            (id (p.getD 1 default) - id (p.getD 0 default)))) ) := by
  refine ⟨?_, score_pairs_mahalanobis 1 id _ ?_⟩ <;>
  · intro p hp
    simp only [List.mem_singleton] at hp
    subst hp
    rfl

/-- C3: the pairwise distance computed by `score_pairs` satisfies the
pseudo-metric axioms for every transform `L`: non-negativity, symmetry, zero on
identical points, and the triangle inequality. -/
theorem score_pair_metric_axioms {k d : ℕ} (L : Matrix (Fin k) (Fin d) ℝ)
    (x y z : Vec d) :
    0 ≤ score_pair L (x, y) ∧
    score_pair L (x, y) = score_pair L (y, x) ∧
    score_pair L (x, x) = 0 ∧
    score_pair L (x, z) ≤ score_pair L (x, y) + score_pair L (y, z) := by
  have keynorm : ∀ a b : Vec d, score_pair L (a, b) =
      ‖((WithLp.equiv 2 (Fin k → ℝ)).symm (Matrix.mulVec L (b - a)))‖ := by
    intro a b
    rw [EuclideanSpace.norm_eq]
    unfold score_pair transform
    congr 1
    refine Finset.sum_congr rfl fun j _ => ?_
    rw [WithLp.equiv_symm_pi_apply, Real.norm_eq_abs, sq_abs]
  refine ⟨Real.sqrt_nonneg _, ?_, ?_, ?_⟩
  · rw [keynorm, keynorm]
    have : Matrix.mulVec L (y - x) = -Matrix.mulVec L (x - y) := by
      rw [← Matrix.mulVec_neg, neg_sub]
    rw [this]
    exact norm_neg _
  · rw [keynorm]
    simp [Matrix.mulVec_zero]
  · rw [keynorm, keynorm, keynorm]
    have hsum : Matrix.mulVec L (z - x) =
        Matrix.mulVec L (y - x) + Matrix.mulVec L (z - y) := by
      rw [← Matrix.mulVec_add]
      abel_nf
    rw [hsum]
    exact norm_add_le _ _

/-- C10: `_QuadrupletsClassifierMixin.predict` returns for each quadruplet the
real-valued difference of the two pair scores (not a value restricted to
`{-1, +1}`: on a concrete quadruplet it returns `3`), and `score` returns the
negated mean of these differences. -/
theorem quad_predict_score_spec :
    (∀ (k d : ℕ) (L : Matrix (Fin k) (Fin d) ℝ)
        (qs : List ((Vec d × Vec d) × (Vec d × Vec d))),
      quad_predict L qs = qs.map fun q => score_pair L q.1 - score_pair L q.2) ∧
    (∀ (k d : ℕ) (L : Matrix (Fin k) (Fin d) ℝ)
        (qs : List ((Vec d × Vec d) × (Vec d × Vec d))),
      quad_score L qs = -((qs.map fun q => score_pair L q.1 - score_pair L q.2).sum /
        (qs.map fun q => score_pair L q.1 - score_pair L q.2).length)) ∧
    quad_predict (1 : Matrix (Fin 1) (Fin 1) ℝ)
        [(((fun _ => 0 : Vec 1), (fun _ => 3 : Vec 1)),
          ((fun _ => 0 : Vec 1), (fun _ => 0 : Vec 1)))] = [3] ∧
    (3 : ℝ) ∉ ({-1, 1} : Set ℝ) := by
  have hpred : ∀ (k d : ℕ) (L : Matrix (Fin k) (Fin d) ℝ)
      (qs : List ((Vec d × Vec d) × (Vec d × Vec d))),
      quad_predict L qs = qs.map fun q => score_pair L q.1 - score_pair L q.2 := by
    intro k d L qs
    unfold quad_predict
    induction qs with
    | nil => rfl
    | cons q qs ih => simp [ih]
  refine ⟨hpred, ?_, ?_, ?_⟩
  · intro k d L qs
    unfold quad_score
    rw [hpred]
  · rw [hpred]
    have h0 : score_pair (1 : Matrix (Fin 1) (Fin 1) ℝ)
        ((fun _ => 0 : Vec 1), (fun _ => 0 : Vec 1)) = 0 := by
      unfold score_pair transform
      simp
    have h3 : score_pair (1 : Matrix (Fin 1) (Fin 1) ℝ)
        ((fun _ => 0 : Vec 1), (fun _ => 3 : Vec 1)) = 3 := by
      unfold score_pair transform
      have hvec : ((fun _ => 3 : Vec 1) - (fun _ => 0 : Vec 1)) = (fun _ => 3 : Vec 1) := by
        funext j
        simp
      rw [hvec, Matrix.one_mulVec]
      have : ∑ j : Fin 1, (fun _ => 3 : Vec 1) j ^ 2 = 9 := by norm_num
      rw [this]
      rw [show (9 : ℝ) = 3 ^ 2 by norm_num]
      exact Real.sqrt_sq (by norm_num)
    simp [h0, h3]
  · intro h
    rcases h with h | h <;> norm_num at h

/-- `MahalanobisMixin.transformer_from_metric`: three-way case split on the
Mahalanobis matrix. The external linear-algebra facility is modelled by
black-box arguments: `chol` stands for `numpy.linalg.cholesky(metric)` and
`(w, V)` for the eigendecomposition `numpy.linalg.eigh(metric)`; theorems
constrain them only through their standard numerical contracts. The float
tolerance tests `np.allclose`/`np.isclose` are idealized to exact equality. -/
noncomputable def transformer_from_metric {n : ℕ}
    (metric chol : Matrix (Fin n) (Fin n) ℝ) (w : Fin n → ℝ)
    (V : Matrix (Fin n) (Fin n) ℝ) : Matrix (Fin n) (Fin n) ℝ :=
  haveI := Classical.propDecidable (metric = Matrix.diagonal (fun i => metric i i))
  haveI := Classical.propDecidable (metric.det ≠ 0)
  if metric = Matrix.diagonal (fun i => metric i i) then
    Matrix.of fun i j => Real.sqrt (metric i j)
  else if metric.det ≠ 0 then
    chol.transpose
  else
    Matrix.of fun i j => V.transpose i j * Real.sqrt (max 0 (w i))

/-- The diagonal of a real positive semi-definite matrix is non-negative. -/
lemma posSemidef_diag_nonneg {n : ℕ} {M : Matrix (Fin n) (Fin n) ℝ}
    (hM : M.PosSemidef) (i : Fin n) : 0 ≤ M i i := by
  simpa using hM.2 (Pi.single i 1)

/-- C1: for every symmetric PSD matrix `M`, `transformer_from_metric` follows
the three-way case split (elementwise square root of a diagonal `M`, transpose
of the Cholesky factor when `det M ≠ 0`, eigendecomposition with negative
eigenvalues clipped to zero otherwise), and in every case the returned `L`
satisfies `Lᵀ * L = M`. -/
theorem transformer_from_metric_factorizes {n : ℕ}
    (metric chol : Matrix (Fin n) (Fin n) ℝ) (w : Fin n → ℝ)
    (V : Matrix (Fin n) (Fin n) ℝ)
    (hm : metric.PosSemidef)
    (hchol : chol * chol.transpose = metric)
    (heig : V * Matrix.diagonal w * V.transpose = metric)
    (horth : V.transpose * V = 1) :
    (transformer_from_metric metric chol w V).transpose *
      transformer_from_metric metric chol w V = metric := by
  classical
  have hw : ∀ i, 0 ≤ w i := by
    have hpsd2 : (V.transpose * metric * V).PosSemidef := by
      have h := hm.conjTranspose_mul_mul_same V
      rwa [Matrix.conjTranspose_eq_transpose_of_trivial] at h
    have hdw : Matrix.diagonal w = V.transpose * metric * V := by
      rw [← heig]
      symm
      calc V.transpose * (V * Matrix.diagonal w * V.transpose) * V
          = V.transpose * V * Matrix.diagonal w * (V.transpose * V) := by
            simp only [Matrix.mul_assoc]
        _ = Matrix.diagonal w := by rw [horth]; simp
    intro i
    have h0 := posSemidef_diag_nonneg hpsd2 i
    rw [← hdw] at h0
    simpa using h0
  unfold transformer_from_metric
  by_cases h1 : metric = Matrix.diagonal (fun i => metric i i)
  · rw [if_pos h1]
    have hLdiag : (Matrix.of fun i j => Real.sqrt (metric i j)) =
        Matrix.diagonal (fun i => Real.sqrt (metric i i)) := by
      apply Matrix.ext
      intro i j
      by_cases hij : i = j
      · subst hij
        simp
      · rw [Matrix.of_apply, Matrix.diagonal_apply_ne _ hij]
        conv_lhs => rw [h1]
        rw [Matrix.diagonal_apply_ne _ hij, Real.sqrt_zero]
    rw [hLdiag, Matrix.diagonal_transpose, Matrix.diagonal_mul_diagonal]
    conv_rhs => rw [h1]
    have hfun : (fun i => Real.sqrt (metric i i) * Real.sqrt (metric i i)) =
        fun i => metric i i := by
      funext i
      exact Real.mul_self_sqrt (posSemidef_diag_nonneg hm i)
    rw [hfun]
  · rw [if_neg h1]
    by_cases h2 : metric.det ≠ 0
    · rw [if_pos h2, Matrix.transpose_transpose, hchol]
    · rw [if_neg h2]
      have hL : (Matrix.of fun i j => V.transpose i j * Real.sqrt (max 0 (w i))) =
          Matrix.diagonal (fun i => Real.sqrt (max 0 (w i))) * V.transpose := by
        apply Matrix.ext
        intro i j
        rw [Matrix.of_apply, Matrix.diagonal_mul, mul_comm]
      rw [hL, Matrix.transpose_mul, Matrix.transpose_transpose,
        Matrix.diagonal_transpose]
      have hdd : Matrix.diagonal (fun i => Real.sqrt (max 0 (w i))) *
          Matrix.diagonal (fun i => Real.sqrt (max 0 (w i))) = Matrix.diagonal w := by
        rw [Matrix.diagonal_mul_diagonal]
        have hfun : (fun i => Real.sqrt (max 0 (w i)) * Real.sqrt (max 0 (w i))) = w := by
          funext i
          rw [Real.mul_self_sqrt (le_max_left 0 (w i)), max_eq_right (hw i)]
        rw [hfun]
      calc V * Matrix.diagonal (fun i => Real.sqrt (max 0 (w i))) *
            (Matrix.diagonal (fun i => Real.sqrt (max 0 (w i))) * V.transpose)
          = V * (Matrix.diagonal (fun i => Real.sqrt (max 0 (w i))) *
              Matrix.diagonal (fun i => Real.sqrt (max 0 (w i)))) * V.transpose := by
            simp only [Matrix.mul_assoc]
        _ = metric := by rw [hdd, heig]

/-- Witness for C1: the zero matrix in dimension 1 is symmetric PSD, with
Cholesky factor `0` and eigendecomposition `w = 0`, `V = 1`. -/
theorem transformer_from_metric_factorizes_witness :
    (0 : Matrix (Fin 1) (Fin 1) ℝ).PosSemidef ∧
    (0 : Matrix (Fin 1) (Fin 1) ℝ) * (0 : Matrix (Fin 1) (Fin 1) ℝ).transpose = 0 ∧
    (1 : Matrix (Fin 1) (Fin 1) ℝ) * Matrix.diagonal (fun _ => (0 : ℝ)) *
      (1 : Matrix (Fin 1) (Fin 1) ℝ).transpose = 0 ∧
    (1 : Matrix (Fin 1) (Fin 1) ℝ).transpose * 1 = 1 ∧
    (transformer_from_metric (0 : Matrix (Fin 1) (Fin 1) ℝ) 0 (fun _ => 0) 1).transpose *
      transformer_from_metric (0 : Matrix (Fin 1) (Fin 1) ℝ) 0 (fun _ => 0) 1 = 0 :=
  ⟨Matrix.PosSemidef.zero, by simp, by simp, by simp,
    transformer_from_metric_factorizes 0 0 (fun _ => 0) 1 Matrix.PosSemidef.zero
      (by simp) (by simp) (by simp)⟩

/-- `MLKR._loss`: the embedding `X_embedded = np.dot(X, A.T)`. -/
noncomputable def mlkr_X_embedded {n d m : ℕ} (X : Matrix (Fin n) (Fin d) ℝ)
    (A : Matrix (Fin m) (Fin d) ℝ) : Matrix (Fin n) (Fin m) ℝ :=
  X * A.transpose

/-- `MLKR._loss`: `dist = pairwise_distances(X_embedded, squared=True)`, the
squared euclidean distances between embedded points. -/
noncomputable def mlkr_dist {n d m : ℕ} (X : Matrix (Fin n) (Fin d) ℝ)
    (A : Matrix (Fin m) (Fin d) ℝ) (i j : Fin n) : ℝ :=
  ∑ t, (mlkr_X_embedded X A i t - mlkr_X_embedded X A j t) ^ 2

/-- `MLKR._loss`: the unnormalized kernel weights `np.exp(-dist)` after
`np.fill_diagonal(dist, np.inf)` sets each self-distance to infinity, so the
self-weight is `exp(-∞) = 0`. -/
noncomputable def mlkr_kernel {n d m : ℕ} (X : Matrix (Fin n) (Fin d) ℝ)
    (A : Matrix (Fin m) (Fin d) ℝ) (i j : Fin n) : ℝ :=
  if i = j then 0 else Real.exp (-mlkr_dist X A i j)

/-- `MLKR._loss`: `softmax = np.exp(-dist - logsumexp(-dist, axis=1))`, the
row-normalized kernel weights. -/
noncomputable def mlkr_softmax {n d m : ℕ} (X : Matrix (Fin n) (Fin d) ℝ)
    (A : Matrix (Fin m) (Fin d) ℝ) (i j : Fin n) : ℝ :=
  mlkr_kernel X A i j / ∑ l, mlkr_kernel X A i l

/-- `MLKR._loss`: `yhat = softmax.dot(y)`. -/
noncomputable def mlkr_yhat {n d m : ℕ} (X : Matrix (Fin n) (Fin d) ℝ)
    (A : Matrix (Fin m) (Fin d) ℝ) (y : Fin n → ℝ) (i : Fin n) : ℝ :=
  ∑ j, mlkr_softmax X A i j * y j

/-- `MLKR._loss`: `W = softmax * ydiff[:, np.newaxis] * (y - yhat[:, np.newaxis])`
where `ydiff = yhat - y`. -/
noncomputable def mlkr_W {n d m : ℕ} (X : Matrix (Fin n) (Fin d) ℝ)
    (A : Matrix (Fin m) (Fin d) ℝ) (y : Fin n → ℝ) (i j : Fin n) : ℝ :=
  mlkr_softmax X A i j * (mlkr_yhat X A y i - y i) * (y j - mlkr_yhat X A y i)

/-- `MLKR._loss`: `W_sym = W + W.T` followed by
`np.fill_diagonal(W_sym, -W.sum(axis=0))`. -/
noncomputable def mlkr_W_sym {n d m : ℕ} (X : Matrix (Fin n) (Fin d) ℝ)
    (A : Matrix (Fin m) (Fin d) ℝ) (y : Fin n → ℝ) (i j : Fin n) : ℝ :=
  if i = j then -(∑ l, mlkr_W X A y l i)
  else mlkr_W X A y i j + mlkr_W X A y j i

/-- `MLKR._loss`: returns the pair of the cost `((yhat - y) ** 2).sum()` and the
gradient `4 * (X_embedded.T.dot(W_sym)).dot(X)`. -/
noncomputable def mlkr_loss {n d m : ℕ} (X : Matrix (Fin n) (Fin d) ℝ)
    (y : Fin n → ℝ) (A : Matrix (Fin m) (Fin d) ℝ) :
    ℝ × Matrix (Fin m) (Fin d) ℝ :=
  (∑ i, (mlkr_yhat X A y i - y i) ^ 2,
   (4 : ℝ) • ((mlkr_X_embedded X A).transpose * Matrix.of (mlkr_W_sym X A y) * X))

/-- Row sums of the kernel reduce to sums over the other points. -/
lemma mlkr_kernel_sum_erase {n d m : ℕ} (X : Matrix (Fin n) (Fin d) ℝ)
    (A : Matrix (Fin m) (Fin d) ℝ) (i : Fin n) (f : Fin n → ℝ) :
    ∑ j, mlkr_kernel X A i j * f j =
      ∑ j ∈ Finset.univ.erase i, Real.exp (-mlkr_dist X A i j) * f j := by
  rw [← Finset.sum_erase_add _ _ (Finset.mem_univ i)]
  have hself : mlkr_kernel X A i i * f i = 0 := by simp [mlkr_kernel]
  rw [hself, add_zero]
  refine Finset.sum_congr rfl fun j hj => ?_
  have hji : j ≠ i := (Finset.mem_erase.mp hj).1
  rw [mlkr_kernel, if_neg fun h => hji h.symm]

/-- The code-side `yhat` is the softmax-weighted average of the other points'
targets. -/
lemma mlkr_yhat_eq {n d m : ℕ} (X : Matrix (Fin n) (Fin d) ℝ)
    (A : Matrix (Fin m) (Fin d) ℝ) (y : Fin n → ℝ) (i : Fin n) :
    mlkr_yhat X A y i =
      (∑ j ∈ Finset.univ.erase i, Real.exp (-mlkr_dist X A i j) * y j) /
        (∑ j ∈ Finset.univ.erase i, Real.exp (-mlkr_dist X A i j)) := by
  unfold mlkr_yhat mlkr_softmax
  have hnum : ∑ j, mlkr_kernel X A i j / (∑ l, mlkr_kernel X A i l) * y j =
      (∑ j, mlkr_kernel X A i j * y j) / (∑ l, mlkr_kernel X A i l) := by
    rw [Finset.sum_div]
    refine Finset.sum_congr rfl fun j _ => ?_
    rw [div_mul_eq_mul_div]
  rw [hnum, mlkr_kernel_sum_erase]
  have hden : ∑ l, mlkr_kernel X A i l =
      ∑ j ∈ Finset.univ.erase i, Real.exp (-mlkr_dist X A i j) := by
    have := mlkr_kernel_sum_erase X A i (fun _ => 1)
    simpa using this
  rw [hden]

/-- C7: `MLKR._loss` returns the cost `∑ i, (yhat i - y i) ^ 2` where `yhat` is
the softmax-weighted (by negative squared embedded distance, self-distance set
to infinity before the softmax) average of the other points' targets, together
with the gradient `4 · X_embeddedᵀ · W_sym · X`, where `W_sym = W + Wᵀ` with
its diagonal replaced by the negative column sums of `W`. -/
theorem mlkr_loss_spec {n d m : ℕ} (X : Matrix (Fin n) (Fin d) ℝ)
    (y : Fin n → ℝ) (A : Matrix (Fin m) (Fin d) ℝ) :
    mlkr_loss X y A =
      (∑ i, ((∑ j ∈ Finset.univ.erase i, Real.exp (-mlkr_dist X A i j) * y j) /
          (∑ j ∈ Finset.univ.erase i, Real.exp (-mlkr_dist X A i j)) - y i) ^ 2,
       (4 : ℝ) • ((mlkr_X_embedded X A).transpose *
         Matrix.of (fun i j => if i = j then -(∑ l, mlkr_W X A y l i)
           else (Matrix.of (mlkr_W X A y) + (Matrix.of (mlkr_W X A y)).transpose) i j) *
         X)) := by
  unfold mlkr_loss
  have hfst : ∑ i, (mlkr_yhat X A y i - y i) ^ 2 =
      ∑ i, ((∑ j ∈ Finset.univ.erase i, Real.exp (-mlkr_dist X A i j) * y j) /
        (∑ j ∈ Finset.univ.erase i, Real.exp (-mlkr_dist X A i j)) - y i) ^ 2 := by
    refine Finset.sum_congr rfl fun i _ => ?_
    rw [mlkr_yhat_eq]
  have hsnd : Matrix.of (mlkr_W_sym X A y) =
      Matrix.of (fun i j => if i = j then -(∑ l, mlkr_W X A y l i)
        else (Matrix.of (mlkr_W X A y) + (Matrix.of (mlkr_W X A y)).transpose) i j) := by
    apply Matrix.ext
    intro i j
    by_cases hij : i = j
    · subst hij
      simp [mlkr_W_sym]
    · simp [mlkr_W_sym, hij, Matrix.add_apply, Matrix.transpose_apply]
  rw [hfst, hsnd]

/-- The result of the external scipy `minimize` black box (`L-BFGS-B`) in
`MLKR.fit`: the best-found transform (already reshaped to `A.shape`), the
success flag and the optimizer message. -/
structure OptimizeResult (m d : ℕ) where
  x : Matrix (Fin m) (Fin d) ℝ
  success : Bool
  message : String

/-- The convergence warning text
`'[{}] MLKR did not converge: {}'.format(cls_name, res.message)`. -/
def mlkr_convergence_warning (clsName message : String) : String :=
  "[" ++ clsName ++ "] MLKR did not converge: " ++ message

/-- The tail of `MLKR.fit` after the `minimize` call: sets
`self.transformer_ = res.x.reshape(A.shape)` and, only when `self.verbose` is
set and the optimizer reports failure, emits a `ConvergenceWarning`. The
returned pair is the fitted transform together with the warnings emitted;
the function is total (fitting never raises on non-convergence). -/
def mlkr_fit_finish {m d : ℕ} (res : OptimizeResult m d) (verbose : Bool)
    (clsName : String) : Matrix (Fin m) (Fin d) ℝ × List String :=
  (res.x,
    if verbose then
      if res.success = false then [mlkr_convergence_warning clsName res.message]
      else []
    else [])

/-- Counterexample for C8: with the default `verbose=False`, a failed
optimization emits no convergence warning at all (while the claim says a
warning is emitted whenever the optimizer fails to converge). -/
theorem mlkr_fit_finish_counterexample :
    (OptimizeResult.mk (0 : Matrix (Fin 1) (Fin 1) ℝ) false
      "ABNORMAL_TERMINATION_IN_LNSRCH").success = false ∧
    (mlkr_fit_finish (OptimizeResult.mk (0 : Matrix (Fin 1) (Fin 1) ℝ) false
      "ABNORMAL_TERMINATION_IN_LNSRCH") false "MLKR").2 = [] := by
  exact ⟨rfl, rfl⟩

/-- C8 (amended): `MLKR.fit` never raises on non-convergence: it always sets
`transformer_` to the optimizer's best-found matrix and returns; the
non-fatal convergence warning is emitted exactly when `verbose` is enabled
and the optimizer reports failure. -/
theorem mlkr_fit_finish_spec {m d : ℕ} (res : OptimizeResult m d)
    (verbose : Bool) (clsName : String) :
    (mlkr_fit_finish res verbose clsName).1 = res.x ∧
    (mlkr_fit_finish res verbose clsName).2 =
      (if verbose = true ∧ res.success = false
       then [mlkr_convergence_warning clsName res.message] else []) := by
  refine ⟨rfl, ?_⟩
  unfold mlkr_fit_finish
  cases verbose <;> cases hs : res.success <;> simp [hs]

/-- `vector_norm(X)` from `_util.py`: the euclidean norm of each row,
`np.linalg.norm(X, axis=1)`; here on a single row. -/
noncomputable def vector_norm (v : List ℝ) : ℝ :=
  Real.sqrt ((v.map fun t => t ^ 2).sum)

/-- A pair is collapsed when the euclidean norm of the difference of its two
elements is below `1e-9`. -/
def collapsed_pair (p : List ℝ × List ℝ) : Prop :=
  vector_norm (List.zipWith (fun a b => a - b) p.1 p.2) < 1e-9

/-- `(vector_norm(pairs[:, 0] - pairs[:, 1]) < 1e-9).sum()`: the number of
collapsed pairs. -/
noncomputable def num_ident (pairs : List (List ℝ × List ℝ)) : ℕ :=
  (pairs.map fun p =>
    haveI := Classical.propDecidable (collapsed_pair p)
    if collapsed_pair p then 1 else 0).sum

/-- `check_collapsed_pairs` from `_util.py`: raises a `ValueError` reporting
the collapsed count and the total count when any pair is collapsed. -/
noncomputable def check_collapsed_pairs (pairs : List (List ℝ × List ℝ)) :
    Except String Unit :=
  if num_ident pairs ≠ 0 then
    Except.error (toString (num_ident pairs) ++
      " collapsed pairs found (where the left element is the same as the right element), out of "
      ++ toString pairs.length ++ " pairs in total.")
  else Except.ok ()

/-- `num_ident` is non-zero exactly when some pair is collapsed. -/
lemma num_ident_ne_zero_iff (pairs : List (List ℝ × List ℝ)) :
    num_ident pairs ≠ 0 ↔ ∃ p ∈ pairs, collapsed_pair p := by
  classical
  induction pairs with
  | nil => simp [num_ident]
  | cons p ps ih =>
    by_cases hc : collapsed_pair p
    · simp [num_ident, hc]
    · simp only [num_ident, List.map_cons, List.sum_cons, if_neg hc, zero_add,
        List.mem_cons] at ih ⊢
      rw [ih]
      constructor
      · intro h
        exact h.imp fun q hq => ⟨Or.inr hq.1, hq.2⟩
      · rintro ⟨q, hq | hq, hcq⟩
        · exact absurd (hq ▸ hcq) hc
        · exact ⟨q, hq, hcq⟩

/-- C9: `check_collapsed_pairs` raises a `ValueError` exactly when some pair
has euclidean difference norm below `1e-9`, the message reports the collapsed
count and the total count, and on the concrete input
`[[[0.1,3.3],[0.1,3.3]], [[0.1,3.3],[3.3,0.1]], [[2.5,8.1],[2.5,8.1]]]` it
reports exactly 2 collapsed pairs out of 3. -/
theorem check_collapsed_pairs_spec :
    (∀ pairs : List (List ℝ × List ℝ),
      (∃ e, check_collapsed_pairs pairs = Except.error e) ↔
        ∃ p ∈ pairs, collapsed_pair p) ∧
    (∀ pairs : List (List ℝ × List ℝ), num_ident pairs ≠ 0 →
      check_collapsed_pairs pairs = Except.error (toString (num_ident pairs) ++
        " collapsed pairs found (where the left element is the same as the right element), out of "
        ++ toString pairs.length ++ " pairs in total.")) ∧
    check_collapsed_pairs
        [([0.1, 3.3], [0.1, 3.3]), ([0.1, 3.3], [3.3, 0.1]), ([2.5, 8.1], [2.5, 8.1])] =
      Except.error
        "2 collapsed pairs found (where the left element is the same as the right element), out of 3 pairs in total." := by
  classical
  have herr : ∀ pairs : List (List ℝ × List ℝ), num_ident pairs ≠ 0 →
      check_collapsed_pairs pairs = Except.error (toString (num_ident pairs) ++
        " collapsed pairs found (where the left element is the same as the right element), out of "
        ++ toString pairs.length ++ " pairs in total.") := by
    intro pairs h
    unfold check_collapsed_pairs
    rw [if_pos h]
  refine ⟨?_, herr, ?_⟩
  · intro pairs
    rw [← num_ident_ne_zero_iff]
    constructor
    · rintro ⟨e, he⟩
      intro h0
      unfold check_collapsed_pairs at he
      rw [if_neg (fun hne => hne h0)] at he
      exact Except.noConfusion he
    · intro h
      exact ⟨_, herr pairs h⟩
  · have hzero : collapsed_pair (([0.1, 3.3], [0.1, 3.3]) : List ℝ × List ℝ) := by
      unfold collapsed_pair vector_norm
      have harg : ((List.zipWith (fun a b => a - b) [(0.1 : ℝ), 3.3] [0.1, 3.3]).map
          fun t => t ^ 2).sum = 0 := by
        norm_num
      rw [harg, Real.sqrt_zero]
      norm_num
    have hzero2 : collapsed_pair (([2.5, 8.1], [2.5, 8.1]) : List ℝ × List ℝ) := by
      unfold collapsed_pair vector_norm
      have harg : ((List.zipWith (fun a b => a - b) [(2.5 : ℝ), 8.1] [2.5, 8.1]).map
          fun t => t ^ 2).sum = 0 := by
        norm_num
      rw [harg, Real.sqrt_zero]
      norm_num
    have hnot : ¬ collapsed_pair (([0.1, 3.3], [3.3, 0.1]) : List ℝ × List ℝ) := by
      unfold collapsed_pair vector_norm
      have harg : ((List.zipWith (fun a b => a - b) [(0.1 : ℝ), 3.3] [3.3, 0.1]).map
          fun t => t ^ 2).sum = 20.48 := by
        norm_num
      rw [harg, Real.sqrt_lt' (by norm_num : (0 : ℝ) < 1e-9)]
      norm_num
    have hnum : num_ident
        [(([0.1, 3.3], [0.1, 3.3]) : List ℝ × List ℝ), ([0.1, 3.3], [3.3, 0.1]),
          ([2.5, 8.1], [2.5, 8.1])] = 2 := by
      unfold num_ident
      simp only [List.map_cons, List.map_nil, List.sum_cons, List.sum_nil]
      rw [if_pos hzero, if_neg hnot, if_pos hzero2]
      norm_num
    have h2 := herr
      [(([0.1, 3.3], [0.1, 3.3]) : List ℝ × List ℝ), ([0.1, 3.3], [3.3, 0.1]),
        ([2.5, 8.1], [2.5, 8.1])] (by rw [hnum]; norm_num)
    rw [hnum] at h2
    exact h2

/-- A numpy array as seen by the shape-routing code of `_util.py`: its rank
(`ndim`) and its printed form (interpolated verbatim into error messages). -/
structure NDArray where
  ndim : ℕ
  shown : String
deriving DecidableEq

/-- `make_context(estimator)`: the estimator-name suffix of error messages. -/
def make_context (estimator : Option String) : String :=
  match estimator with
  | some name => " by " ++ name
  | none => ""

/-- `make_error_input`: the `expected_input` strings keyed by the first digit
of the error code. -/
def expected_input_str (digit : ℕ) : String :=
  if digit = 1 then "2D array of formed points"
  else if digit = 2 then "3D array of formed tuples"
  else if digit = 3 then "1D array of indicators or 2D array of formed points"
  else "2D array of indicators or 3D array of formed tuples"

/-- `make_error_input`: the `additional_context` strings keyed by the middle
digit of the error code. -/
def additional_context_str (digit : ℕ) : String :=
  if digit = 0 then ""
  else if digit = 2 then " when using a preprocessor"
  else " after the preprocessor has been applied"

/-- `make_error_input`: the `possible_preprocessor` strings keyed by the last
digit of the error code. -/
def possible_preprocessor_str (digit : ℕ) : String :=
  if digit = 0 then "" else " and/or use a preprocessor"

/-- `make_error_input(code, input_data, context)`: renders the shape error
message from the three code digits. -/
def make_error_input (code : ℕ) (input_data : NDArray) (context : String) :
    String :=
  expected_input_str (code / 100) ++ " expected" ++ context ++
    additional_context_str (code / 10 % 10) ++ ". Found " ++
    toString input_data.ndim ++ "D array instead:\ninput=" ++ input_data.shown ++
    ". Reshape your data" ++ possible_preprocessor_str (code % 10) ++ ".\n"

/-- `check_input_classic`: points-mode dimensionality routing. `preprocessor`
is the optional preprocessor and `checkArray` models the external sklearn
`check_array` black box applied to the routed data. -/
def check_input_classic (input_data : NDArray) (context : String)
    (preprocessor : Option (NDArray → NDArray))
    (checkArray : NDArray → NDArray) : Except String NDArray :=
  if input_data.ndim = 1 then
    match preprocessor with
    | some pre =>
      if (checkArray (pre input_data)).ndim ≠ 2 then
        Except.error (make_error_input 111 (checkArray (pre input_data)) context)
      else Except.ok (checkArray (pre input_data))
    | none => Except.error (make_error_input 101 input_data context)
  else if input_data.ndim = 2 then
    if (checkArray input_data).ndim ≠ 2 then
      Except.error (make_error_input 101 (checkArray input_data) context)
    else Except.ok (checkArray input_data)
  else
    match preprocessor with
    | some _ => Except.error (make_error_input 320 input_data context)
    | none => Except.error (make_error_input 100 input_data context)

/-- The error-message template exactly as the claim states it: the expected
shape description, `expected`, the estimator-name context, and the
preprocessor hint — with no additional-context segment. -/
def claimed_error_template (desc context : String) (foundDim : ℕ)
    (shown hint : String) : String :=
  desc ++ " expected" ++ context ++ ". Found " ++ toString foundDim ++
    "D array instead:\ninput=" ++ shown ++ ". Reshape your data" ++ hint ++ ".\n"

/-- The template actually rendered by `make_error_input`: identical to the
claimed one except for an additional-context segment inserted between the
estimator-name context and the period. -/
def rendered_shape_error (desc context addl : String) (foundDim : ℕ)
    (shown hint : String) : String :=
  desc ++ " expected" ++ context ++ addl ++ ". Found " ++ toString foundDim ++
    "D array instead:\ninput=" ++ shown ++ ". Reshape your data" ++ hint ++ ".\n"

/-- Counterexample for C4: in points mode, a 3D input with a preprocessor and
estimator name `NCA` produces a message containing the extra segment
`" when using a preprocessor"` after the estimator-name context, so the
message is not an instance of the claimed template (for either admissible
expected-shape description, with the empty hint the claim prescribes when a
preprocessor is supplied, nor with the non-empty hint). -/
theorem check_input_classic_counterexample :
    check_input_classic (NDArray.mk 3 "[[[5.0]]]") " by NCA"
        (some id) id =
      Except.error (make_error_input 320 (NDArray.mk 3 "[[[5.0]]]") " by NCA") ∧
    make_error_input 320 (NDArray.mk 3 "[[[5.0]]]") " by NCA" ≠
      claimed_error_template "1D array of indicators or 2D array of formed points"
        " by NCA" 3 "[[[5.0]]]" "" ∧
    make_error_input 320 (NDArray.mk 3 "[[[5.0]]]") " by NCA" ≠
      claimed_error_template "2D array of formed points" " by NCA" 3 "[[[5.0]]]" "" ∧
    make_error_input 320 (NDArray.mk 3 "[[[5.0]]]") " by NCA" ≠
      claimed_error_template "1D array of indicators or 2D array of formed points"
        " by NCA" 3 "[[[5.0]]]" " and/or use a preprocessor" ∧
    make_error_input 320 (NDArray.mk 3 "[[[5.0]]]") " by NCA" ≠
      claimed_error_template "2D array of formed points" " by NCA" 3 "[[[5.0]]]"
        " and/or use a preprocessor" := by
  refine ⟨rfl, ?_, ?_, ?_, ?_⟩ <;> decide

/-- C4 (amended): in points mode, `check_input_classic` applies the
preprocessor to rank-1 input (requiring one), accepts rank-2 input (as checked
by `check_array`), and raises a `ValueError` for every other rank; every shape
error message is the rendered template
`<desc> expected<context><additional_context>. Found <N>D array
instead:\ninput=<data>. Reshape your data<hint>.\n` where the additional
context is empty for plain errors, `" when using a preprocessor"` when a
supplied preprocessor could not be applied to the invalid rank, and
`" after the preprocessor has been applied"` when the post-preprocessing check
fails. -/
theorem check_input_classic_spec (input_data : NDArray) (context : String)
    (preprocessor : Option (NDArray → NDArray))
    (checkArray : NDArray → NDArray) :
    check_input_classic input_data context preprocessor checkArray =
      if input_data.ndim = 1 then
        match preprocessor with
        | some pre =>
          if (checkArray (pre input_data)).ndim = 2 then
            Except.ok (checkArray (pre input_data))
          else
            Except.error (rendered_shape_error "2D array of formed points" context
              " after the preprocessor has been applied"
              (checkArray (pre input_data)).ndim (checkArray (pre input_data)).shown
              " and/or use a preprocessor")
        | none =>
          Except.error (rendered_shape_error "2D array of formed points" context ""
            input_data.ndim input_data.shown " and/or use a preprocessor")
      else if input_data.ndim = 2 then
        (if (checkArray input_data).ndim = 2 then Except.ok (checkArray input_data)
         else Except.error (rendered_shape_error "2D array of formed points" context ""
           (checkArray input_data).ndim (checkArray input_data).shown
           " and/or use a preprocessor"))
      else
        match preprocessor with
        | some _ =>
          Except.error (rendered_shape_error
            "1D array of indicators or 2D array of formed points" context
            " when using a preprocessor" input_data.ndim input_data.shown "")
        | none =>
          Except.error (rendered_shape_error "2D array of formed points" context ""
            input_data.ndim input_data.shown "") := by
  unfold check_input_classic
  cases preprocessor with
  | none =>
    by_cases h1 : input_data.ndim = 1
    · simp only [if_pos h1]
      rfl
    · by_cases h2 : input_data.ndim = 2
      · simp only [if_neg h1, if_pos h2]
        by_cases h3 : (checkArray input_data).ndim = 2
        · simp only [if_neg (not_not_intro h3), if_pos h3]
        · simp only [if_pos h3, if_neg h3]
          rfl
      · simp only [if_neg h1, if_neg h2]
        rfl
  | some pre =>
    by_cases h1 : input_data.ndim = 1
    · simp only [if_pos h1]
      by_cases h3 : (checkArray (pre input_data)).ndim = 2
      · simp only [if_neg (not_not_intro h3), if_pos h3]
      · simp only [if_pos h3, if_neg h3]
        rfl
    · by_cases h2 : input_data.ndim = 2
      · simp only [if_neg h1, if_pos h2]
        by_cases h3 : (checkArray input_data).ndim = 2
        · simp only [if_neg (not_not_intro h3), if_pos h3]
        · simp only [if_pos h3, if_neg h3]
          rfl
      · simp only [if_neg h1, if_neg h2]
        rfl

/-- `Constraints.chunks`: the per-class index sets `all_inds` — for each
distinct non-negative label value (in increasing order, as `np.unique`
produces), the positions holding that label; negative labels are unknown. -/
def all_inds (labels : List ℤ) : List (List ℕ) :=
  (labels.dedup.insertionSort (· ≤ ·)).filterMap fun v =>
    if 0 ≤ v then
      some ((List.range labels.length).filter fun i => labels.getD i (-1) = v)
    else none

/-- `max_chunks = int(np.sum([len(s) // chunk_size for s in all_inds]))`. -/
def max_chunks (labels : List ℤ) (chunk_size : ℕ) : ℕ :=
  ((all_inds labels).map fun s => s.length / chunk_size).sum

/-- `random_state.choice(list(inds), chunk_size, replace=False)` driven by an
injected selection stream `sel`: repeatedly removes the element at position
`sel k` (mod the remaining length), returning the chosen elements and the
remainder. -/
def drawK (sel : ℕ → ℕ) : ℕ → List ℕ → List ℕ × List ℕ
  | 0, l => ([], l)
  | k + 1, l =>
    let pos := sel k % l.length
    let x := l.getD pos 0
    let rest := l.eraseIdx pos
    let drawn := drawK sel k rest
    (x :: drawn.1, drawn.2)

/-- The `while idx < num_chunks and all_inds:` loop of `Constraints.chunks`,
with fuel (each iteration either discards an exhausted class or assigns one
more chunk, so `num_chunks + len(all_inds)` fuel always suffices). `pick`
models `random_state.randint(0, high=len(all_inds) - 1)` (note the exclusive
upper bound of the source) and `sel` drives the member selection. -/
def chunksLoop (pick : ℕ → ℕ) (sel : ℕ → ℕ → ℕ) (numChunks chunkSize : ℕ) :
    ℕ → ℕ → List (List ℕ) → List ℤ → List ℤ
  | 0, _, _, acc => acc
  | fuel + 1, idx, allClasses, acc =>
    if idx < numChunks ∧ allClasses ≠ [] then
      let c := if allClasses.length = 1 then 0
               else pick fuel % (allClasses.length - 1)
      let inds := allClasses.getD c []
      if inds.length < chunkSize then
        chunksLoop pick sel numChunks chunkSize fuel idx
          (allClasses.eraseIdx c) acc
      else
        let drawn := drawK (sel fuel) chunkSize inds
        chunksLoop pick sel numChunks chunkSize fuel (idx + 1)
          (allClasses.set c drawn.2)
          (drawn.1.foldl (fun a i => a.set i (idx : ℤ)) acc)
    else acc

/-- `Constraints.chunks(num_chunks, chunk_size)` with injected randomness:
starts from `chunks = -np.ones_like(partial_labels)`, fails fast (before any
chunk is assigned) when `num_chunks` exceeds `max_chunks`, and otherwise runs
the assignment loop. -/
def chunks (labels : List ℤ) (num_chunks chunk_size : ℕ)
    (pick : ℕ → ℕ) (sel : ℕ → ℕ → ℕ) : Except String (List ℤ) :=
  if max_chunks labels chunk_size < num_chunks then
    Except.error ("Not enough possible chunks of " ++ toString chunk_size ++
      " elements in each class to form expected " ++ toString num_chunks ++
      " chunks - maximum number of chunks is " ++
      toString (max_chunks labels chunk_size))
  else
    Except.ok (chunksLoop pick sel num_chunks chunk_size
      (num_chunks + (all_inds labels).length) 0 (all_inds labels)
      (labels.map fun _ => (-1 : ℤ)))

/-- C5: `Constraints.chunks` raises a `ValueError` — before assigning any
chunk — exactly when `num_chunks` exceeds the maximum feasible chunk count,
the sum over known-label classes of `floor(class_size / chunk_size)`, and the
error message states that exact maximum. -/
theorem chunks_error_iff (labels : List ℤ) (num_chunks chunk_size : ℕ)
    (pick : ℕ → ℕ) (sel : ℕ → ℕ → ℕ) (hcs : 0 < chunk_size) :
    ((∃ e, chunks labels num_chunks chunk_size pick sel = Except.error e) ↔
      ((all_inds labels).map fun s => s.length / chunk_size).sum < num_chunks) ∧
    (((all_inds labels).map fun s => s.length / chunk_size).sum < num_chunks →
      chunks labels num_chunks chunk_size pick sel = Except.error
        ("Not enough possible chunks of " ++ toString chunk_size ++
         " elements in each class to form expected " ++ toString num_chunks ++
         " chunks - maximum number of chunks is " ++
         toString (((all_inds labels).map fun s => s.length / chunk_size).sum))) := by
  have _ := hcs
  have herr : ((all_inds labels).map fun s => s.length / chunk_size).sum < num_chunks →
      chunks labels num_chunks chunk_size pick sel = Except.error
        ("Not enough possible chunks of " ++ toString chunk_size ++
         " elements in each class to form expected " ++ toString num_chunks ++
         " chunks - maximum number of chunks is " ++
         toString (((all_inds labels).map fun s => s.length / chunk_size).sum)) := by
    intro h
    unfold chunks max_chunks
    rw [if_pos h]
  refine ⟨⟨?_, fun h => ⟨_, herr h⟩⟩, herr⟩
  rintro ⟨e, he⟩
  by_cases h : max_chunks labels chunk_size < num_chunks
  · exact h
  · unfold chunks at he
    rw [if_neg h] at he
    exact Except.noConfusion he

/-- Witness for C5: the feasible maximum for labels `[0, 0, 1, -1]` with
`chunk_size = 2` is `1` (one chunk from class 0, none from class 1, the
negative label discarded), so requesting 3 chunks fails with that maximum in
the message. -/
theorem chunks_error_iff_witness :
    0 < 2 ∧
    (((∃ e, chunks [0, 0, 1, -1] 3 2 (fun _ => 0) (fun _ _ => 0) =
          Except.error e) ↔
        ((all_inds [0, 0, 1, -1]).map fun s => s.length / 2).sum < 3) ∧
      (((all_inds [0, 0, 1, -1]).map fun s => s.length / 2).sum < 3 →
        chunks [0, 0, 1, -1] 3 2 (fun _ => 0) (fun _ _ => 0) = Except.error
          ("Not enough possible chunks of " ++ toString 2 ++
           " elements in each class to form expected " ++ toString 3 ++
           " chunks - maximum number of chunks is " ++
           toString (((all_inds [0, 0, 1, -1]).map fun s => s.length / 2).sum)))) :=
  ⟨by norm_num,
   chunks_error_iff [0, 0, 1, -1] 3 2 (fun _ => 0) (fun _ _ => 0) (by norm_num)⟩

/-- `known_label_idx, = np.where(self.partial_labels >= 0)`. -/
def known_label_idx (labels : List ℤ) : List ℕ :=
  (List.range labels.length).filter fun i => decide (0 ≤ labels.getD i (-1))

/-- `known_labels = self.partial_labels[known_label_idx]`. -/
def known_labels (labels : List ℤ) : List ℤ :=
  (known_label_idx labels).map fun i => labels.getD i (-1)

/-- One draw of the inner `for aidx in random_state.randint(num_labels,
size=nc)` loop of `Constraints._pairs`: draw an anchor position, build the
mask of admissible partners (same label with the anchor position itself masked
out, or different label), and when the choice set is non-empty add the chosen
`(anchor, partner)` position pair to the accumulation set (modelled as a
duplicate-free list; Python set iteration order is unspecified). `rand t`
supplies the two random draws of step `t`. -/
def addPair (sameLabel : Bool) (kl : List ℤ) (rand : ℕ → ℕ × ℕ) (t : ℕ)
    (ab : List (ℕ × ℕ)) : List (ℕ × ℕ) :=
  let n := kl.length
  let aidx := (rand t).1 % n
  let bChoices := (List.range n).filter fun j =>
    if sameLabel then kl.getD j 0 == kl.getD aidx 0 && j != aidx
    else kl.getD j 0 != kl.getD aidx 0
  if bChoices.isEmpty then ab
  else
    let b := bChoices.getD ((rand t).2 % bChoices.length) 0
    if (aidx, b) ∈ ab then ab else (aidx, b) :: ab

/-- The `while it < max_iter and len(ab) < num_constraints` loop of
`Constraints._pairs`; `ctr` numbers the random draws consumed so far and the
fuel starts at `max_iter = 10`. -/
def pairsLoop (sameLabel : Bool) (kl : List ℤ) (rand : ℕ → ℕ × ℕ)
    (numConstraints : ℕ) : ℕ → ℕ → List (ℕ × ℕ) → List (ℕ × ℕ)
  | 0, _, ab => ab
  | it + 1, ctr, ab =>
    if ab.length < numConstraints then
      let nc := numConstraints - ab.length
      let ab2 := (List.range nc).foldl
        (fun s k => addPair sameLabel kl rand (ctr + k) s) ab
      pairsLoop sameLabel kl rand numConstraints it (ctr + nc) ab2
    else ab

/-- `Constraints._pairs`: accumulate up to `num_constraints` distinct
`(anchor, partner)` position pairs over at most 10 rounds, truncate with
`list(ab)[:num_constraints]`, and map positions back to original indices
through `known_label_idx`. -/
def _pairs (labels : List ℤ) (numConstraints : ℕ) (sameLabel : Bool)
    (rand : ℕ → ℕ × ℕ) : List ℕ × List ℕ :=
  let kli := known_label_idx labels
  let ab := pairsLoop sameLabel (known_labels labels) rand numConstraints 10 0 []
  let taken := ab.take numConstraints
  (taken.map fun p => kli.getD p.1 0, taken.map fun p => kli.getD p.2 0)

/-- `Constraints.positive_negative_pairs`: same-label pairs `(a, b)` and
different-label pairs `(c, d)`, optionally truncated to a common length. -/
def positive_negative_pairs (labels : List ℤ) (numConstraints : ℕ)
    (sameLength : Bool) (randPos randNeg : ℕ → ℕ × ℕ) :
    List ℕ × List ℕ × List ℕ × List ℕ :=
  let ab := _pairs labels numConstraints true randPos
  let cd := _pairs labels numConstraints false randNeg
  if sameLength && (ab.1.length != cd.1.length) then
    let m := min ab.1.length cd.1.length
    (ab.1.take m, ab.2.take m, cd.1.take m, cd.2.take m)
  else (ab.1, ab.2, cd.1, cd.2)

/-- The invariant maintained by the pair-accumulation set of
`Constraints._pairs`: no duplicate `(anchor, partner)` pair, all positions in
range, and (for the same-label polarity) no self pair. -/
def pairsInv (sameLabel : Bool) (n : ℕ) (ab : List (ℕ × ℕ)) : Prop :=
  ab.Nodup ∧ ∀ p ∈ ab, p.1 < n ∧ p.2 < n ∧ (sameLabel = true → p.1 ≠ p.2)

/-- A single draw preserves the accumulation-set invariant. -/
lemma addPair_inv (sameLabel : Bool) (kl : List ℤ) (rand : ℕ → ℕ × ℕ) (t : ℕ)
    (ab : List (ℕ × ℕ)) (h : pairsInv sameLabel kl.length ab) :
    pairsInv sameLabel kl.length (addPair sameLabel kl rand t ab) := by
  unfold addPair
  dsimp only
  by_cases hemp : ((List.range kl.length).filter fun j =>
      if sameLabel then kl.getD j 0 == kl.getD ((rand t).1 % kl.length) 0 &&
        j != (rand t).1 % kl.length
      else kl.getD j 0 != kl.getD ((rand t).1 % kl.length) 0).isEmpty
  · rw [if_pos hemp]
    exact h
  · rw [if_neg hemp]
    set n := kl.length with hn
    set aidx := (rand t).1 % n with haidx
    set bChoices := (List.range n).filter (fun j =>
      if sameLabel then kl.getD j 0 == kl.getD aidx 0 && j != aidx
      else kl.getD j 0 != kl.getD aidx 0) with hbc
    set b := bChoices.getD ((rand t).2 % bChoices.length) 0 with hb
    by_cases hmem : (aidx, b) ∈ ab
    · rw [if_pos hmem]
      exact h
    · rw [if_neg hmem]
      have hne : bChoices ≠ [] := fun hnil => hemp (List.isEmpty_iff.mpr hnil)
      have hblen : 0 < bChoices.length := List.length_pos.mpr hne
      have hbmem : b ∈ bChoices := by
        rw [hb, List.getD_eq_getElem _ _ (Nat.mod_lt _ hblen)]
        exact List.getElem_mem _
      have hbprop := List.mem_filter.mp hbmem
      have hbn : b < n := List.mem_range.mp hbprop.1
      have hnpos : 0 < n := Nat.lt_of_le_of_lt (Nat.zero_le b) hbn
      have han : aidx < n := Nat.mod_lt _ hnpos
      have hneq : sameLabel = true → aidx ≠ b := by
        intro hsl
        have hcond := hbprop.2
        rw [hsl] at hcond
        simp only [if_true, Bool.and_eq_true, bne_iff_ne] at hcond
        exact fun hab => hcond.2 hab.symm
      refine ⟨List.nodup_cons.mpr ⟨hmem, h.1⟩, ?_⟩
      intro p hp
      rcases List.mem_cons.mp hp with rfl | hp
      · exact ⟨han, hbn, hneq⟩
      · exact h.2 p hp

/-- The inner `for` loop (a fold of draws) preserves the invariant. -/
lemma foldl_addPair_inv (sameLabel : Bool) (kl : List ℤ) (rand : ℕ → ℕ × ℕ)
    (ks : List ℕ) (ctr : ℕ) (ab : List (ℕ × ℕ))
    (h : pairsInv sameLabel kl.length ab) :
    pairsInv sameLabel kl.length
      (ks.foldl (fun s k => addPair sameLabel kl rand (ctr + k) s) ab) := by
  induction ks generalizing ab with
  | nil => exact h
  | cons k ks ih =>
    exact ih _ (addPair_inv sameLabel kl rand (ctr + k) ab h)

/-- The outer retry loop preserves the invariant. -/
lemma pairsLoop_inv (sameLabel : Bool) (kl : List ℤ) (rand : ℕ → ℕ × ℕ)
    (numConstraints : ℕ) (fuel ctr : ℕ) (ab : List (ℕ × ℕ))
    (h : pairsInv sameLabel kl.length ab) :
    pairsInv sameLabel kl.length
      (pairsLoop sameLabel kl rand numConstraints fuel ctr ab) := by
  induction fuel generalizing ctr ab with
  | zero => exact h
  | succ it ih =>
    unfold pairsLoop
    dsimp only
    by_cases hlt : ab.length < numConstraints
    · rw [if_pos hlt]
      exact ih _ _ (foldl_addPair_inv sameLabel kl rand _ _ ab h)
    · rw [if_neg hlt]
      exact h

/-- `known_label_idx` is strictly increasing (it filters `np.where` order). -/
lemma known_label_idx_sorted (labels : List ℤ) :
    (known_label_idx labels).Pairwise (· < ·) :=
  List.Pairwise.sublist (List.filter_sublist _) (List.pairwise_lt_range _)

/-- Positions below the length of a strictly increasing list are determined by
the values found there. -/
lemma sorted_getD_inj (l : List ℕ) (hl : l.Pairwise (· < ·)) (i j : ℕ)
    (hi : i < l.length) (hj : j < l.length) (heq : l.getD i 0 = l.getD j 0) :
    i = j := by
  rcases lt_trichotomy i j with hij | rfl | hij
  · exfalso
    have hlt := List.pairwise_iff_getElem.mp hl i j hi hj hij
    rw [List.getD_eq_getElem _ _ hi, List.getD_eq_getElem _ _ hj] at heq
    exact absurd heq (ne_of_lt hlt)
  · rfl
  · exfalso
    have hlt := List.pairwise_iff_getElem.mp hl j i hj hi hij
    rw [List.getD_eq_getElem _ _ hi, List.getD_eq_getElem _ _ hj] at heq
    exact absurd heq.symm (ne_of_lt hlt)

/-- Zipping the two mapped index arrays of `_pairs` keeps distinct pairs
distinct. -/
lemma mapped_zip_nodup (labels : List ℤ) (tk : List (ℕ × ℕ)) (hnd : tk.Nodup)
    (hmem : ∀ p ∈ tk, p.1 < (known_label_idx labels).length ∧
      p.2 < (known_label_idx labels).length) :
    ((tk.map fun p => (known_label_idx labels).getD p.1 0).zip
      (tk.map fun p => (known_label_idx labels).getD p.2 0)).Nodup := by
  rw [List.zip_map']
  refine List.Nodup.map_on ?_ hnd
  intro p hp q hq hpq
  have h1 := congrArg Prod.fst hpq
  have h2 := congrArg Prod.snd hpq
  dsimp at h1 h2
  have hps := hmem p hp
  have hqs := hmem q hq
  have e1 := sorted_getD_inj _ (known_label_idx_sorted labels) _ _ hps.1 hqs.1 h1
  have e2 := sorted_getD_inj _ (known_label_idx_sorted labels) _ _ hps.2 hqs.2 h2
  exact Prod.ext e1 e2

/-- Members of the zipped same-label arrays have distinct components. -/
lemma mapped_zip_ne (labels : List ℤ) (tk : List (ℕ × ℕ))
    (hmem : ∀ p ∈ tk, p.1 < (known_label_idx labels).length ∧
      p.2 < (known_label_idx labels).length)
    (hne : ∀ p ∈ tk, p.1 ≠ p.2) :
    ∀ q ∈ (tk.map fun p => (known_label_idx labels).getD p.1 0).zip
      (tk.map fun p => (known_label_idx labels).getD p.2 0), q.1 ≠ q.2 := by
  rw [List.zip_map']
  intro q hq
  obtain ⟨p, hp, rfl⟩ := List.mem_map.mp hq
  dsimp
  intro hcontr
  have hps := hmem p hp
  exact hne p hp (sorted_getD_inj _ (known_label_idx_sorted labels) _ _
    hps.1 hps.2 hcontr)

/-- `known_labels` has the same length as `known_label_idx`. -/
lemma known_labels_length (labels : List ℤ) :
    (known_labels labels).length = (known_label_idx labels).length := by
  unfold known_labels
  rw [List.length_map]

/-- The two index arrays of one polarity of `_pairs`, zipped: distinct pairs,
and (same-label polarity) distinct components. -/
lemma pairsZip_props (labels : List ℤ) (numConstraints : ℕ) (sameLabel : Bool)
    (rand : ℕ → ℕ × ℕ) :
    ((_pairs labels numConstraints sameLabel rand).1.zip
      (_pairs labels numConstraints sameLabel rand).2).Nodup ∧
    (sameLabel = true →
      ∀ q ∈ (_pairs labels numConstraints sameLabel rand).1.zip
        (_pairs labels numConstraints sameLabel rand).2, q.1 ≠ q.2) := by
  unfold _pairs
  dsimp only
  have hinv := pairsLoop_inv sameLabel (known_labels labels) rand numConstraints
    10 0 [] ⟨List.nodup_nil, fun p hp => absurd hp (List.not_mem_nil p)⟩
  have htknd : ((pairsLoop sameLabel (known_labels labels) rand numConstraints
      10 0 []).take numConstraints).Nodup :=
    List.Nodup.sublist (List.take_sublist _ _) hinv.1
  have htkmem : ∀ p ∈ (pairsLoop sameLabel (known_labels labels) rand
      numConstraints 10 0 []).take numConstraints,
      p.1 < (known_label_idx labels).length ∧
      p.2 < (known_label_idx labels).length := by
    intro p hp
    have hfull := hinv.2 p (List.mem_of_mem_take hp)
    rw [known_labels_length] at hfull
    exact ⟨hfull.1, hfull.2.1⟩
  refine ⟨mapped_zip_nodup labels _ htknd htkmem, fun hsl => ?_⟩
  refine mapped_zip_ne labels _ htkmem ?_
  intro p hp
  exact (hinv.2 p (List.mem_of_mem_take hp)).2.2 hsl

/-- C6: for every partial-label vector and random source, the four index
arrays `(a, b, c, d)` of `positive_negative_pairs` contain no duplicate
`(anchor, partner)` pair within the same-label set, none within the
different-label set, and no position has `a[i] = b[i]` (no self pairs). -/
theorem positive_negative_pairs_no_dup_no_self (labels : List ℤ)
    (numConstraints : ℕ) (sameLength : Bool) (randPos randNeg : ℕ → ℕ × ℕ) :
    ((positive_negative_pairs labels numConstraints sameLength randPos
        randNeg).1.zip
      (positive_negative_pairs labels numConstraints sameLength randPos
        randNeg).2.1).Nodup ∧
    ((positive_negative_pairs labels numConstraints sameLength randPos
        randNeg).2.2.1.zip
      (positive_negative_pairs labels numConstraints sameLength randPos
        randNeg).2.2.2).Nodup ∧
    (∀ q ∈ (positive_negative_pairs labels numConstraints sameLength randPos
        randNeg).1.zip
      (positive_negative_pairs labels numConstraints sameLength randPos
        randNeg).2.1, q.1 ≠ q.2) := by
  obtain ⟨hposnd, hposne⟩ := pairsZip_props labels numConstraints true randPos
  obtain ⟨hnegnd, _⟩ := pairsZip_props labels numConstraints false randNeg
  unfold positive_negative_pairs
  dsimp only
  by_cases hcond : (sameLength &&
      ((_pairs labels numConstraints true randPos).1.length !=
        (_pairs labels numConstraints false randNeg).1.length)) = true
  · rw [if_pos hcond]
    have hzipPos : ((_pairs labels numConstraints true randPos).1.take
          (min (_pairs labels numConstraints true randPos).1.length
            (_pairs labels numConstraints false randNeg).1.length)).zip
        ((_pairs labels numConstraints true randPos).2.take
          (min (_pairs labels numConstraints true randPos).1.length
            (_pairs labels numConstraints false randNeg).1.length)) =
        ((_pairs labels numConstraints true randPos).1.zip
          (_pairs labels numConstraints true randPos).2).take
          (min (_pairs labels numConstraints true randPos).1.length
            (_pairs labels numConstraints false randNeg).1.length) :=
      (List.take_zipWith).symm
    have hzipNeg : ((_pairs labels numConstraints false randNeg).1.take
          (min (_pairs labels numConstraints true randPos).1.length
            (_pairs labels numConstraints false randNeg).1.length)).zip
        ((_pairs labels numConstraints false randNeg).2.take
          (min (_pairs labels numConstraints true randPos).1.length
            (_pairs labels numConstraints false randNeg).1.length)) =
        ((_pairs labels numConstraints false randNeg).1.zip
          (_pairs labels numConstraints false randNeg).2).take
          (min (_pairs labels numConstraints true randPos).1.length
            (_pairs labels numConstraints false randNeg).1.length) :=
      (List.take_zipWith).symm
    refine ⟨?_, ?_, ?_⟩
    · rw [hzipPos]
      exact List.Nodup.sublist (List.take_sublist _ _) hposnd
    · rw [hzipNeg]
      exact List.Nodup.sublist (List.take_sublist _ _) hnegnd
    · rw [hzipPos]
      intro q hq
      exact hposne rfl q (List.mem_of_mem_take hq)
  · rw [if_neg hcond]
    exact ⟨hposnd, hnegnd, hposne rfl⟩

end MetricLearn
